import Mathlib

/-!
Verification development for the Echo repository file server
(src/echo/components/fileserver.py).

The FileServer component uploads and downloads files: uploads stream the
request body in chunks of `chunk_size` bytes into a local cache file,
update a per-transfer progress dictionary after each chunk, push the data
file and a metadata descriptor to a shared remote Drive, and delete the
local copies; downloads serve the local file, rehydrating it from the
Drive when the local copy is absent.

Python strings are modelled as lists of characters, bytes as lists of
naturals, the local filesystem and the remote Drive as partial maps from
path strings to file contents, and the mutable per-transfer progress
dictionary as a partial map from identifier to entry.  The Drive itself is
external to the repository (lightning_app.storage.Drive); its put/get are
modelled from the spec (section 4.4 and 6): keys are paths relative to the
directory that contains the local cache root, so key baseDirName/id
denotes the local file cacheRoot/id.
-/

namespace Echo

/-- Python str modelled as a list of characters. -/
abbrev PyStr := List Char

/-- Byte sequences modelled as lists of naturals. -/
abbrev Bytes := List Nat

/-- The POSIX path separator used by the source (os.sep on the Linux
deployment target). -/
def sep : Char := '/'

/-- os.path.join for two components (posixpath.join): if the second
component is absolute it replaces the first; otherwise they are joined,
inserting a separator unless the first is empty or already ends in one. -/
def pjoin (a b : PyStr) : PyStr :=
  if b.head? = some sep then b
  else if a = [] ∨ a.getLast? = some sep then a ++ b
  else a ++ sep :: b

/-- Python str.split(os.sep): splits on every separator occurrence,
keeping empty segments; the result is always nonempty. -/
def splitOnSep : PyStr → List PyStr
  | [] => [[]]
  | c :: rest =>
    if c = sep then [] :: splitOnSep rest
    else
      match splitOnSep rest with
      | [] => [[c]]
      | h :: t => (c :: h) :: t

/-- Python str.rfind for a single character: index of the last occurrence,
or none when absent. -/
def rfindAux (c : Char) : PyStr → Option Nat
  | [] => none
  | x :: xs =>
    match rfindAux c xs with
    | some i => some (i + 1)
    | none => if x = c then some 0 else none

/-- os.path.splitext (posixpath, altsep absent): splits off the extension
starting at the last dot, unless every character of the final path
component before that dot is itself a dot (so dotfiles keep their name). -/
def splitext (p : PyStr) : PyStr × PyStr :=
  let sepIdx : Int := match rfindAux sep p with | some i => (i : Int) | none => -1
  let dotIdx : Int := match rfindAux '.' p with | some i => (i : Int) | none => -1
  if sepIdx < dotIdx then
    let fStart : Nat := (sepIdx + 1).toNat
    let dotN : Nat := dotIdx.toNat
    if ((p.drop fStart).take (dotN - fStart)).any (fun c => c != '.') then
      (p.take dotN, p.drop dotN)
    else (p, [])
  else (p, [])

/-- FileServer.get_filepath: os.path.join(self.base_dir, path). -/
def get_filepath (base_dir path : PyStr) : PyStr :=
  pjoin base_dir path

/-- FileServer.get_drive_filepath: os.path.join of the last component of
base_dir.split(os.sep) with the identifier. -/
def get_drive_filepath (base_dir echo_id : PyStr) : PyStr :=
  pjoin ((splitOnSep base_dir).getLastD []) echo_id

/-- The successive chunks returned by repeating file.read(chunk_size)
until a falsy (empty) chunk is returned. -/
def chunksOf (c : Nat) (b : Bytes) : List Bytes :=
  if h : b = [] then []
  else if hc : c = 0 then []
  else b.take c :: chunksOf c (b.drop c)
termination_by b.length
decreasing_by
  simp only [List.length_drop]
  exact Nat.sub_lt (List.length_pos.mpr h) (Nat.pos_of_ne_zero hc)

theorem chunksOf_nil (c : Nat) : chunksOf c [] = [] := by
  rw [chunksOf]
  simp

theorem chunksOf_cons (c : Nat) (hc : c ≠ 0) (b : Bytes) (hb : b ≠ []) :
    chunksOf c b = b.take c :: chunksOf c (b.drop c) := by
  rw [chunksOf]
  simp [hb, hc]

/-- Writing the chunks back to back restores the original byte stream. -/
theorem chunksOf_flatten (c : Nat) (hc : c ≠ 0) (b : Bytes) :
    (chunksOf c b).flatten = b := by
  have H : ∀ n (b : Bytes), b.length ≤ n → (chunksOf c b).flatten = b := by
    intro n
    induction n with
    | zero =>
      intro b hb
      have : b = [] := List.eq_nil_of_length_eq_zero (Nat.le_zero.mp hb)
      simp [this, chunksOf_nil]
    | succ n ih =>
      intro b hb
      match b with
      | [] => simp [chunksOf_nil]
      | x :: xs =>
        rw [chunksOf_cons c hc _ (by simp)]
        have hlen : ((x :: xs).drop c).length ≤ n := by
          simp only [List.length_drop]
          have hcp := Nat.pos_of_ne_zero hc
          simp only [List.length_cons] at hb ⊢
          omega
        rw [List.flatten_cons, ih _ hlen, List.take_append_drop]
  exact H b.length b le_rfl

/-- Every chunk handed to the writer has at most chunk_size bytes. -/
theorem chunksOf_length_le (c : Nat) (b : Bytes) :
    ∀ ch ∈ chunksOf c b, ch.length ≤ c := by
  have H : ∀ n (b : Bytes), b.length ≤ n → ∀ ch ∈ chunksOf c b, ch.length ≤ c := by
    intro n
    induction n with
    | zero =>
      intro b hb
      have : b = [] := List.eq_nil_of_length_eq_zero (Nat.le_zero.mp hb)
      simp [this, chunksOf_nil]
    | succ n ih =>
      intro b hb
      match b with
      | [] => simp [chunksOf_nil]
      | x :: xs =>
        by_cases hc : c = 0
        · intro ch hch
          rw [chunksOf, dif_neg (by simp), dif_pos hc] at hch
          simp at hch
        · rw [chunksOf_cons c hc _ (by simp)]
          have hlen : ((x :: xs).drop c).length ≤ n := by
            simp only [List.length_drop]
            have hcp := Nat.pos_of_ne_zero hc
            simp only [List.length_cons] at hb ⊢
            omega
          intro ch hch
          rcases List.mem_cons.mp hch with h | h
          · subst h
            simpa using List.length_take_le c (x :: xs)
          · exact ih _ hlen ch h
  exact H b.length b le_rfl

/-- The number of chunks is the ceiling of the byte count divided by the
chunk size. -/
theorem chunksOf_count (c : Nat) (hc : c ≠ 0) (b : Bytes) :
    (chunksOf c b).length = (b.length + c - 1) / c := by
  have H : ∀ n (b : Bytes), b.length ≤ n →
      (chunksOf c b).length = (b.length + c - 1) / c := by
    intro n
    induction n with
    | zero =>
      intro b hb
      have hb0 : b = [] := List.eq_nil_of_length_eq_zero (Nat.le_zero.mp hb)
      subst hb0
      rw [chunksOf_nil]
      have : c - 1 < c := Nat.sub_lt (Nat.pos_of_ne_zero hc) Nat.one_pos
      simp [Nat.div_eq_of_lt this]
    | succ n ih =>
      intro b hb
      match b with
      | [] =>
        rw [chunksOf_nil]
        have : c - 1 < c := Nat.sub_lt (Nat.pos_of_ne_zero hc) Nat.one_pos
        simp [Nat.div_eq_of_lt this]
      | x :: xs =>
        rw [chunksOf_cons c hc _ (by simp)]
        have hlen : ((x :: xs).drop c).length ≤ n := by
          simp only [List.length_drop]
          have hcp := Nat.pos_of_ne_zero hc
          simp only [List.length_cons] at hb ⊢
          omega
        rw [List.length_cons, ih _ hlen]
        simp only [List.length_drop]
        have hcp := Nat.pos_of_ne_zero hc
        rcases Nat.lt_or_ge ((x :: xs).length) (c + 1) with hle | hgt
        · have h1 : (x :: xs).length - c = 0 := by omega
          have h2 : ((x :: xs).length + c - 1) / c = 1 := by
            have hl1 : 1 ≤ (x :: xs).length := by simp
            apply Nat.div_eq_of_lt_le <;> omega
          rw [h1, h2]
          have : c - 1 < c := Nat.sub_lt (Nat.pos_of_ne_zero hc) Nat.one_pos
          simp [Nat.div_eq_of_lt this]
        · have h1 : (x :: xs).length - c + c - 1 = (x :: xs).length - 1 := by omega
          have h2 : (x :: xs).length + c - 1 = ((x :: xs).length - 1) + c := by omega
          rw [h1, h2, Nat.add_div_right _ (Nat.pos_of_ne_zero hc)]
  exact H b.length b le_rfl

/-- Errors observable at the FileServer boundary.  ObjectNotFound is the
remote store miss of spec section 4.4; TransferNotFound is the error the
spec says a download of an unknown id surfaces; BackingStoreError covers
remote put failures; IOErr covers local read failures. -/
inductive Err where
  | ObjectNotFound
  | TransferNotFound
  | BackingStoreError
  | IOErr
  deriving DecidableEq

/-- Which of the three tracker-dictionary assignment statements in
upload_file produced a tracker update: the initial assignment (line 58),
the per-chunk progress assignment (lines 65-68), or the completion
assignment (lines 76-80). -/
inductive TrackKind where
  | init
  | advance
  | complete
  deriving DecidableEq

/-- One value of self.uploaded_files of some echo_id: the progress pair
(bytes written, total size) and the done flag, plus the uploaded_file key
that the completion assignment adds. -/
structure UploadEntry where
  written : Nat
  total : Option Nat
  done : Bool
  uploadedFile : Option PyStr
  deriving DecidableEq

/-- The metadata dictionary built by upload_file (lines 84-88). -/
structure MetaRec where
  original_path : PyStr
  display_name : PyStr
  size : Nat
  drive_path : PyStr
  deriving DecidableEq

/-- Contents of a file: either raw uploaded bytes or the serialized
metadata descriptor written by json.dump. -/
inductive FileData where
  | bytes (b : Bytes)
  | metaRec (m : MetaRec)
  deriving DecidableEq

/-- Observable events emitted while upload_file and download_file run, in
program order. -/
inductive Ev where
  | writeFile (p : PyStr)
  | track (k : TrackKind) (id : PyStr) (e : UploadEntry)
  | putDrive (k : PyStr)
  | getDrive (k : PyStr)
  | removeFile (p : PyStr)
  | readFile (p : PyStr)
  deriving DecidableEq

/-- Pointwise update of a partial map with string keys. -/
def updateMap {α : Type} (m : PyStr → Option α) (k : PyStr) (v : Option α) :
    PyStr → Option α :=
  fun q => if q = k then v else m q

/-- The mutable state touched by the FileServer: the local filesystem, the
remote Drive objects, and the uploaded_files progress dictionary. -/
structure ServerState where
  fs : PyStr → Option FileData
  drive : PyStr → Option FileData
  uploadedFiles : PyStr → Option UploadEntry

/-- FileServer configuration: base_dir and chunk_size come from __init__;
driveRoot is the directory against which the external Drive resolves
relative keys.  Modelled from the spec (sections 4.4 and 6): relative keys
mirror the local layout, so key baseDirName/id denotes local file
cacheRoot/id, which holds exactly when driveRoot is the parent directory
of base_dir. -/
structure Config where
  base_dir : PyStr
  driveRoot : PyStr
  chunk_size : Nat
  deriving DecidableEq

/-- The literal ".meta" suffix appended to the identifier for the
descriptor file. -/
def metaSuffix : PyStr := '.' :: 'm' :: 'e' :: 't' :: 'a' :: []

/-- Line 58 of upload_file: the unconditional tracker-dictionary
assignment that starts a transfer. -/
def beginTransfer (m : PyStr → Option UploadEntry) (id : PyStr) :
    PyStr → Option UploadEntry :=
  updateMap m id (some ⟨0, none, false, none⟩)

/-- The while loop of upload_file (lines 62-69): for each chunk, append it
to the open file and assign the advanced progress pair.  Returns the
filesystem after the writes, the final byte count, and the emitted
events. -/
def writeLoop (id fp : PyStr) (chs : List Bytes) (acc : Bytes) (w : Nat)
    (fs : PyStr → Option FileData) :
    (PyStr → Option FileData) × Nat × List Ev :=
  match chs with
  | [] => (fs, w, [])
  | ch :: rest =>
    let acc' := acc ++ ch
    let fs' := updateMap fs fp (some (.bytes acc'))
    let out := writeLoop id fp rest acc' (w + ch.length) fs'
    (out.1, out.2.1,
      Ev.writeFile fp :: Ev.track .advance id ⟨w + ch.length, none, false, none⟩ :: out.2.2)

/-- FileServer.upload_file (lines 56-95): begin tracking, stream the body
into the local cache file in chunks, push the data file to the Drive and
remove the local copy, record completion, write the metadata descriptor,
push it to the Drive and remove the local copy, and return the metadata.
Returns the metadata, the final state, and the event log; fails only when
a Drive put finds no file at its key. -/
def upload_file (cfg : Config) (st : ServerState) (echo_id : PyStr)
    (file : Bytes) : Except Err (MetaRec × ServerState × List Ev) :=
  let fp := get_filepath cfg.base_dir echo_id
  let tracker0 := beginTransfer st.uploadedFiles echo_id
  let fs0 := updateMap st.fs fp (some (.bytes []))
  let loopOut := writeLoop echo_id fp (chunksOf cfg.chunk_size file) [] 0 fs0
  let fs1 := loopOut.1
  let n := loopOut.2.1
  let tr0 := Ev.track .init echo_id ⟨0, none, false, none⟩ :: loopOut.2.2
  let dk := get_drive_filepath cfg.base_dir echo_id
  match fs1 (pjoin cfg.driveRoot dk) with
  | none => .error .BackingStoreError
  | some d =>
    let drive1 := updateMap st.drive dk (some d)
    let fs2 := updateMap fs1 fp none
    let entryF : UploadEntry := ⟨n, some n, true, some echo_id⟩
    let tracker1 := updateMap tracker0 echo_id (some entryF)
    let meta : MetaRec := ⟨echo_id, (splitext echo_id).1, n, echo_id⟩
    let mfile := echo_id ++ metaSuffix
    let mp := get_filepath cfg.base_dir mfile
    let mk := get_drive_filepath cfg.base_dir mfile
    let fs3 := updateMap fs2 mp (some (.metaRec meta))
    match fs3 (pjoin cfg.driveRoot mk) with
    | none => .error .BackingStoreError
    | some d2 =>
      let drive2 := updateMap drive1 mk (some d2)
      let fs4 := updateMap fs3 mp none
      .ok (meta, ⟨fs4, drive2, tracker1⟩,
        tr0 ++ [Ev.putDrive dk, Ev.removeFile fp,
          Ev.track .complete echo_id entryF, Ev.writeFile mp,
          Ev.putDrive mk, Ev.removeFile mp])

/-- FileServer.download_file (lines 97-103): when the local file is
absent, fetch it from the Drive (propagating any Drive error unchanged),
then serve the local file. -/
def download_file (cfg : Config) (st : ServerState) (echo_id : PyStr) :
    Except Err (FileData × ServerState × List Ev) :=
  let fp := get_filepath cfg.base_dir echo_id
  match st.fs fp with
  | some d => .ok (d, st, [Ev.readFile fp])
  | none =>
    let dk := get_drive_filepath cfg.base_dir echo_id
    match st.drive dk with
    | none => .error .ObjectNotFound
    | some d =>
      let fs' := updateMap st.fs (pjoin cfg.driveRoot dk) (some d)
      match fs' fp with
      | some d' =>
        .ok (d', ⟨fs', st.drive, st.uploadedFiles⟩,
          [Ev.getDrive dk, Ev.readFile fp])
      | none => .error .IOErr

theorem updateMap_same {α : Type} (m : PyStr → Option α) (k : PyStr)
    (v : Option α) : updateMap m k v k = v := by
  simp [updateMap]

theorem updateMap_other {α : Type} (m : PyStr → Option α) (k q : PyStr)
    (v : Option α) (h : q ≠ k) : updateMap m k v q = m q := by
  simp [updateMap, h]

theorem updateMap_collapse {α : Type} (m : PyStr → Option α) (k : PyStr)
    (v v' : Option α) : updateMap (updateMap m k v) k v' = updateMap m k v' := by
  funext q
  by_cases h : q = k <;> simp [updateMap, h]

theorem sep_free_head {s : PyStr} (h : sep ∉ s) : s.head? ≠ some sep := by
  match s with
  | [] => simp
  | c :: t =>
    simp only [List.head?_cons, ne_eq, Option.some.injEq]
    intro hc
    exact h (hc ▸ List.mem_cons_self c t)

theorem sep_free_getLast {s : PyStr} (h : sep ∉ s) : s.getLast? ≠ some sep := by
  intro hc
  exact h (List.mem_of_getLast?_eq_some hc)

theorem pjoin_eq_append (a b : PyStr) (ha : a ≠ [])
    (ha2 : a.getLast? ≠ some sep) (hb : b.head? ≠ some sep) :
    pjoin a b = a ++ sep :: b := by
  rw [pjoin, if_neg hb, if_neg]
  simp [ha, ha2]

theorem splitOnSep_ne_nil (s : PyStr) : splitOnSep s ≠ [] := by
  match s with
  | [] => simp [splitOnSep]
  | c :: rest =>
    rw [splitOnSep]
    by_cases h : c = sep
    · simp [h]
    · rw [if_neg h]
      match hr : splitOnSep rest with
      | [] => simp
      | x :: t => simp

theorem splitOnSep_sep_free {s : PyStr} (h : sep ∉ s) : splitOnSep s = [s] := by
  induction s with
  | nil => simp [splitOnSep]
  | cons c rest ih =>
    have hc : c ≠ sep := fun hc => h (hc ▸ List.mem_cons_self c rest)
    have hr : sep ∉ rest := fun hm => h (List.mem_cons_of_mem c hm)
    rw [splitOnSep, if_neg hc, ih hr]

theorem splitOnSep_single {s : PyStr} {x : PyStr}
    (h : splitOnSep s = [x]) : sep ∉ s := by
  induction s generalizing x with
  | nil => simp
  | cons c rest ih =>
    rw [splitOnSep] at h
    by_cases hc : c = sep
    · rw [if_pos hc] at h
      exact absurd (congrArg List.length h)
        (by simpa using (splitOnSep_ne_nil rest))
    · rw [if_neg hc] at h
      match hr : splitOnSep rest with
      | [] => exact absurd hr (splitOnSep_ne_nil rest)
      | y :: t =>
        rw [hr] at h
        have ht : t = [] := (List.cons.injEq _ _ _ _ ▸ h).2
        subst ht
        intro hm
        rcases List.mem_cons.mp hm with h1 | h1
        · exact hc h1.symm
        · exact ih hr h1

theorem getLastD_irrel {α : Type} (l : List α) (hl : l ≠ []) (d d' : α) :
    List.getLastD l d = List.getLastD l d' := by
  match l with
  | [] => exact absurd rfl hl
  | x :: t =>
    rw [List.getLastD_eq_getLast?, List.getLastD_eq_getLast?,
      List.getLast?_eq_getLast (x :: t) (by simp)]
    rfl

theorem lastComp_append_sep {ys : PyStr} (hys : sep ∉ ys) :
    ∀ (xs : PyStr) (d : PyStr),
      List.getLastD (splitOnSep (xs ++ sep :: ys)) d = ys := by
  intro xs
  induction xs with
  | nil =>
    intro d
    rw [List.nil_append, splitOnSep, if_pos rfl, splitOnSep_sep_free hys]
    simp [List.getLastD_cons]
  | cons c rest ih =>
    intro d
    rw [List.cons_append, splitOnSep]
    by_cases hc : c = sep
    · rw [if_pos hc]
      rw [List.getLastD_cons]
      exact ih []
    · rw [if_neg hc]
      match hr : splitOnSep (rest ++ sep :: ys) with
      | [] => exact absurd hr (splitOnSep_ne_nil _)
      | y :: t =>
        match t with
        | [] =>
          exact absurd (List.mem_append_right rest (List.mem_cons_self sep ys))
            (splitOnSep_single hr)
        | z :: t' =>
          have h1 := ih d
          rw [hr] at h1
          simpa [List.getLastD_cons] using h1

theorem lastComp_sep_free {s : PyStr} (h : sep ∉ s) (d : PyStr) :
    List.getLastD (splitOnSep s) d = s := by
  rw [splitOnSep_sep_free h]
  simp

/-- The local cache path of an identifier under a well-formed base_dir is
the verbatim appended path. -/
theorem get_filepath_eq (dr dn id : PyStr) (hdn1 : dn ≠ []) (hdn2 : sep ∉ dn)
    (hid : id.head? ≠ some sep) :
    get_filepath (dr ++ sep :: dn) id = (dr ++ sep :: dn) ++ sep :: id := by
  rw [get_filepath]
  apply pjoin_eq_append
  · simp
  · rw [List.getLast?_append_cons]
    have : (sep :: dn).getLast? = dn.getLast? := by
      match dn with
      | [] => exact absurd rfl hdn1
      | x :: t => rw [List.getLast?_cons_cons]
    rw [this]
    exact sep_free_getLast hdn2
  · exact hid

/-- The drive key of an identifier under a well-formed base_dir is the
last component of base_dir joined with the identifier. -/
theorem get_drive_filepath_eq (dr dn id : PyStr) (hdn1 : dn ≠ [])
    (hdn2 : sep ∉ dn) (hid : id.head? ≠ some sep) :
    get_drive_filepath (dr ++ sep :: dn) id = dn ++ sep :: id := by
  rw [get_drive_filepath, lastComp_append_sep hdn2]
  exact pjoin_eq_append dn id hdn1 (sep_free_getLast hdn2) hid

/-- Resolving the drive key against the parent directory of base_dir gives
back exactly the local cache path: the Drive key scheme mirrors the local
layout. -/
theorem drive_key_localizes (dr dn id : PyStr) (hdn1 : dn ≠ [])
    (hdn2 : sep ∉ dn) (hdr1 : dr ≠ []) (hdr2 : dr.getLast? ≠ some sep)
    (hid : id.head? ≠ some sep) :
    pjoin dr (get_drive_filepath (dr ++ sep :: dn) id) =
      get_filepath (dr ++ sep :: dn) id := by
  rw [get_drive_filepath_eq dr dn id hdn1 hdn2 hid,
    get_filepath_eq dr dn id hdn1 hdn2 hid]
  rw [pjoin_eq_append dr (dn ++ sep :: id) hdr1 hdr2]
  · simp
  · match dn with
    | [] => exact absurd rfl hdn1
    | x :: t =>
      simp only [List.cons_append, List.head?_cons, ne_eq, Option.some.injEq]
      intro hx
      exact hdn2 (hx ▸ List.mem_cons_self x t)

/-- Appending the metadata suffix never turns a relative identifier into
an absolute one. -/
theorem metaSuffix_head (id : PyStr) (hid : id.head? ≠ some sep) :
    (id ++ metaSuffix).head? ≠ some sep := by
  match id with
  | [] => simp [metaSuffix, sep]
  | c :: t => simpa using hid

/-- True exactly on the per-chunk progress-assignment events. -/
def isAdvance : Ev → Bool
  | .track .advance _ _ => true
  | _ => false

/-- The successive values assigned to the tracker entry of a given
identifier, in the order the events occurred. -/
def trackStatesFor (id : PyStr) (tr : List Ev) : List UploadEntry :=
  tr.filterMap fun e =>
    match e with
    | .track _ i en => if i = id then some en else none
    | _ => none

/-- The per-chunk tracker entries the while loop assigns, starting from a
byte count. -/
def advEntries (w : Nat) : List Bytes → List UploadEntry
  | [] => []
  | ch :: rest => ⟨w + ch.length, none, false, none⟩ :: advEntries (w + ch.length) rest

theorem writeLoop_fs (id fp : PyStr) (chs : List Bytes) :
    ∀ (acc : Bytes) (w : Nat) (fs : PyStr → Option FileData),
      (writeLoop id fp chs acc w (updateMap fs fp (some (.bytes acc)))).1 =
        updateMap fs fp (some (.bytes (acc ++ chs.flatten))) := by
  induction chs with
  | nil =>
    intro acc w fs
    simp [writeLoop]
  | cons ch rest ih =>
    intro acc w fs
    rw [writeLoop]
    simp only
    rw [updateMap_collapse, ih (acc ++ ch) (w + ch.length) fs]
    simp

theorem writeLoop_written (id fp : PyStr) (chs : List Bytes) :
    ∀ (acc : Bytes) (w : Nat) (fs : PyStr → Option FileData),
      (writeLoop id fp chs acc w fs).2.1 = w + (chs.map List.length).sum := by
  induction chs with
  | nil => intro acc w fs; simp [writeLoop]
  | cons ch rest ih =>
    intro acc w fs
    rw [writeLoop]
    simp only
    rw [ih]
    simp [Nat.add_assoc]

theorem writeLoop_trace_shape (id fp : PyStr) (chs : List Bytes) :
    ∀ (acc : Bytes) (w : Nat) (fs : PyStr → Option FileData),
      ∀ e ∈ (writeLoop id fp chs acc w fs).2.2,
        e = .writeFile fp ∨
          ∃ w', e = .track .advance id ⟨w', none, false, none⟩ := by
  induction chs with
  | nil => intro acc w fs e he; simp [writeLoop] at he
  | cons ch rest ih =>
    intro acc w fs e he
    rw [writeLoop] at he
    simp only [List.mem_cons] at he
    rcases he with h | h | h
    · exact Or.inl h
    · exact Or.inr ⟨w + ch.length, h⟩
    · exact ih _ _ _ e h

theorem writeLoop_trackStates (id fp : PyStr) (chs : List Bytes) :
    ∀ (acc : Bytes) (w : Nat) (fs : PyStr → Option FileData),
      trackStatesFor id (writeLoop id fp chs acc w fs).2.2 = advEntries w chs := by
  induction chs with
  | nil => intro acc w fs; simp [writeLoop, trackStatesFor, advEntries]
  | cons ch rest ih =>
    intro acc w fs
    rw [writeLoop, advEntries]
    simp only [trackStatesFor] at ih ⊢
    simp [List.filterMap_cons, ih]

theorem writeLoop_countAdvance (id fp : PyStr) (chs : List Bytes) :
    ∀ (acc : Bytes) (w : Nat) (fs : PyStr → Option FileData),
      (writeLoop id fp chs acc w fs).2.2.countP isAdvance = chs.length := by
  induction chs with
  | nil => intro acc w fs; simp [writeLoop]
  | cons ch rest ih =>
    intro acc w fs
    rw [writeLoop]
    simp only [List.countP_cons]
    rw [ih]
    simp [isAdvance]

theorem advEntries_done (w : Nat) (chs : List Bytes) :
    ∀ e ∈ advEntries w chs, e.done = false ∧ e.total = none := by
  induction chs generalizing w with
  | nil => simp [advEntries]
  | cons ch rest ih =>
    intro e he
    rw [advEntries] at he
    rcases List.mem_cons.mp he with h | h
    · subst h; exact ⟨rfl, rfl⟩
    · exact ih _ e h

theorem advEntries_length (w : Nat) (chs : List Bytes) :
    (advEntries w chs).length = chs.length := by
  induction chs generalizing w with
  | nil => simp [advEntries]
  | cons ch rest ih => rw [advEntries]; simp [ih]

/-- Full evaluation of upload_file when the Drive key scheme lines up with
the local cache layout (the deployment invariant of spec section 6): the
upload succeeds, returns the metadata record built from splitext and the
streamed byte count, leaves neither local file behind, stores data and
descriptor on the Drive, marks the transfer done, and emits the event log
in program order. -/
theorem upload_file_eq (cfg : Config) (st : ServerState) (echo_id : PyStr)
    (file : Bytes)
    (hp1 : pjoin cfg.driveRoot (get_drive_filepath cfg.base_dir echo_id) =
      get_filepath cfg.base_dir echo_id)
    (hp2 : pjoin cfg.driveRoot
        (get_drive_filepath cfg.base_dir (echo_id ++ metaSuffix)) =
      get_filepath cfg.base_dir (echo_id ++ metaSuffix)) :
    upload_file cfg st echo_id file =
      .ok (⟨echo_id, (splitext echo_id).1,
          ((chunksOf cfg.chunk_size file).map List.length).sum, echo_id⟩,
        ⟨updateMap
            (updateMap st.fs (get_filepath cfg.base_dir echo_id) none)
            (get_filepath cfg.base_dir (echo_id ++ metaSuffix)) none,
          updateMap
            (updateMap st.drive (get_drive_filepath cfg.base_dir echo_id)
              (some (.bytes (chunksOf cfg.chunk_size file).flatten)))
            (get_drive_filepath cfg.base_dir (echo_id ++ metaSuffix))
            (some (.metaRec ⟨echo_id, (splitext echo_id).1,
              ((chunksOf cfg.chunk_size file).map List.length).sum, echo_id⟩)),
          updateMap st.uploadedFiles echo_id
            (some ⟨((chunksOf cfg.chunk_size file).map List.length).sum,
              some ((chunksOf cfg.chunk_size file).map List.length).sum,
              true, some echo_id⟩)⟩,
        Ev.track .init echo_id ⟨0, none, false, none⟩ ::
          (writeLoop echo_id (get_filepath cfg.base_dir echo_id)
            (chunksOf cfg.chunk_size file) [] 0
            (updateMap st.fs (get_filepath cfg.base_dir echo_id)
              (some (.bytes [])))).2.2 ++
          [Ev.putDrive (get_drive_filepath cfg.base_dir echo_id),
            Ev.removeFile (get_filepath cfg.base_dir echo_id),
            Ev.track .complete echo_id
              ⟨((chunksOf cfg.chunk_size file).map List.length).sum,
                some ((chunksOf cfg.chunk_size file).map List.length).sum,
                true, some echo_id⟩,
            Ev.writeFile (get_filepath cfg.base_dir (echo_id ++ metaSuffix)),
            Ev.putDrive (get_drive_filepath cfg.base_dir (echo_id ++ metaSuffix)),
            Ev.removeFile (get_filepath cfg.base_dir (echo_id ++ metaSuffix))]) := by
  have hfs1 : (writeLoop echo_id (get_filepath cfg.base_dir echo_id)
      (chunksOf cfg.chunk_size file) [] 0
      (updateMap st.fs (get_filepath cfg.base_dir echo_id)
        (some (.bytes [])))).1 =
      updateMap st.fs (get_filepath cfg.base_dir echo_id)
        (some (.bytes (chunksOf cfg.chunk_size file).flatten)) := by
    have := writeLoop_fs echo_id (get_filepath cfg.base_dir echo_id)
      (chunksOf cfg.chunk_size file) [] 0 st.fs
    simpa using this
  have hn := writeLoop_written echo_id (get_filepath cfg.base_dir echo_id)
    (chunksOf cfg.chunk_size file) [] 0
    (updateMap st.fs (get_filepath cfg.base_dir echo_id) (some (.bytes [])))
  rw [upload_file]
  simp only [hp1, hp2, hfs1, hn, Nat.zero_add, updateMap_same, updateMap_collapse,
    beginTransfer]

/-- The deployment shape of the configuration (spec section 6): base_dir
is a directory dn inside a parent directory dr, neither degenerate, and
the Drive resolves relative keys against dr. -/
def WellFormedCfg (cfg : Config) (dr dn : PyStr) : Prop :=
  cfg.base_dir = dr ++ sep :: dn ∧ cfg.driveRoot = dr ∧
    dn ≠ [] ∧ sep ∉ dn ∧ dr ≠ [] ∧ dr.getLast? ≠ some sep

instance (cfg : Config) (dr dn : PyStr) : Decidable (WellFormedCfg cfg dr dn) := by
  unfold WellFormedCfg
  infer_instance

theorem wf_localizes {cfg : Config} {dr dn : PyStr}
    (h : WellFormedCfg cfg dr dn) (id : PyStr) (hid : id.head? ≠ some sep) :
    pjoin cfg.driveRoot (get_drive_filepath cfg.base_dir id) =
      get_filepath cfg.base_dir id := by
  obtain ⟨h1, h2, h3, h4, h5, h6⟩ := h
  rw [h1, h2]
  exact drive_key_localizes dr dn id h3 h4 h5 h6 hid

theorem append_meta_ne (p id : PyStr) :
    p ++ sep :: id ≠ p ++ sep :: (id ++ metaSuffix) := by
  intro h
  have := congrArg List.length h
  simp [metaSuffix] at this

theorem updateMap_noop {α : Type} (m : PyStr → Option α) (k : PyStr)
    (h : m k = none) : updateMap m k none = m := by
  funext q
  by_cases hq : q = k
  · subst hq; rw [updateMap_same, h]
  · exact updateMap_other m k q none hq

/-- The empty initial state: no local files, no Drive objects, no tracked
transfers. -/
def emptyState : ServerState :=
  ⟨fun _ => none, fun _ => none, fun _ => none⟩

/-- A concrete deployment configuration used to instantiate the general
theorems: cache root /data/cache inside parent /data, chunk size 3. -/
def sampleConfig : Config :=
  ⟨'/' :: 'd' :: 'a' :: 't' :: 'a' :: '/' :: 'c' :: 'a' :: 'c' :: 'h' :: 'e' :: [],
    '/' :: 'd' :: 'a' :: 't' :: 'a' :: [], 3⟩

/-- C1: uploading bytes B under an identifier and then downloading that
identifier yields exactly B, byte-identical; the download succeeds via
remote rehydration (upload always purges the local copy), and removing the
local cache file out-of-band between the two operations does not change
the result. -/
theorem upload_download_roundtrip (cfg : Config) (st : ServerState)
    (dr dn echo_id : PyStr) (B : Bytes)
    (hwf : WellFormedCfg cfg dr dn) (hid : echo_id.head? ≠ some sep)
    (hc : cfg.chunk_size ≠ 0) :
    ∃ m st1 tr1, upload_file cfg st echo_id B = .ok (m, st1, tr1) ∧
      (∃ st2 tr2,
        download_file cfg st1 echo_id = .ok (.bytes B, st2, tr2)) ∧
      download_file cfg
          ⟨updateMap st1.fs (get_filepath cfg.base_dir echo_id) none,
            st1.drive, st1.uploadedFiles⟩ echo_id =
        download_file cfg st1 echo_id := by
  have hid2 := metaSuffix_head echo_id hid
  have hp1 := wf_localizes hwf echo_id hid
  have hp2 := wf_localizes hwf (echo_id ++ metaSuffix) hid2
  obtain ⟨hb, hroot, hdn1, hdn2, hdr1, hdr2⟩ := hwf
  have hflat := chunksOf_flatten cfg.chunk_size hc B
  -- the two local paths and the two drive keys are distinct
  have hfp : get_filepath cfg.base_dir echo_id ≠
      get_filepath cfg.base_dir (echo_id ++ metaSuffix) := by
    rw [hb, get_filepath_eq dr dn echo_id hdn1 hdn2 hid,
      get_filepath_eq dr dn _ hdn1 hdn2 hid2]
    exact append_meta_ne _ echo_id
  have hdk : get_drive_filepath cfg.base_dir echo_id ≠
      get_drive_filepath cfg.base_dir (echo_id ++ metaSuffix) := by
    rw [hb, get_drive_filepath_eq dr dn echo_id hdn1 hdn2 hid,
      get_drive_filepath_eq dr dn _ hdn1 hdn2 hid2]
    exact append_meta_ne dn echo_id
  rw [upload_file_eq cfg st echo_id B hp1 hp2]
  refine ⟨_, _, _, rfl, ?_⟩
  have hfs_fp : updateMap
      (updateMap st.fs (get_filepath cfg.base_dir echo_id) none)
      (get_filepath cfg.base_dir (echo_id ++ metaSuffix)) none
      (get_filepath cfg.base_dir echo_id) = none := by
    rw [updateMap_other _ _ _ _ hfp, updateMap_same]
  have hdrive_dk : updateMap
      (updateMap st.drive (get_drive_filepath cfg.base_dir echo_id)
        (some (.bytes (chunksOf cfg.chunk_size B).flatten)))
      (get_drive_filepath cfg.base_dir (echo_id ++ metaSuffix))
      (some (.metaRec ⟨echo_id, (splitext echo_id).1,
        ((chunksOf cfg.chunk_size B).map List.length).sum, echo_id⟩))
      (get_drive_filepath cfg.base_dir echo_id) =
      some (.bytes B) := by
    rw [updateMap_other _ _ _ _ hdk, updateMap_same, hflat]
  refine ⟨?_, ?_⟩
  · rw [download_file]
    simp only [hfs_fp, hdrive_dk, hp1, updateMap_same]
    exact ⟨_, _, rfl⟩
  · simp only []
    rw [updateMap_noop _ _ hfs_fp]

/-- C1 witness: the round trip at a concrete configuration, identifier and
byte sequence. -/
theorem upload_download_roundtrip_witness :
    ∃ m st1 tr1, upload_file sampleConfig emptyState
        ('f' :: '.' :: 't' :: 'x' :: 't' :: []) [10, 20, 30, 40, 50] =
        .ok (m, st1, tr1) ∧
      (∃ st2 tr2,
        download_file sampleConfig st1 ('f' :: '.' :: 't' :: 'x' :: 't' :: []) =
          .ok (.bytes [10, 20, 30, 40, 50], st2, tr2)) ∧
      download_file sampleConfig
          ⟨updateMap st1.fs (get_filepath sampleConfig.base_dir
              ('f' :: '.' :: 't' :: 'x' :: 't' :: [])) none,
            st1.drive, st1.uploadedFiles⟩
          ('f' :: '.' :: 't' :: 'x' :: 't' :: []) =
        download_file sampleConfig st1 ('f' :: '.' :: 't' :: 'x' :: 't' :: []) :=
  upload_download_roundtrip sampleConfig emptyState
    ('/' :: 'd' :: 'a' :: 't' :: 'a' :: [])
    ('c' :: 'a' :: 'c' :: 'h' :: 'e' :: [])
    ('f' :: '.' :: 't' :: 'x' :: 't' :: []) [10, 20, 30, 40, 50]
    (by decide) (by decide) (by decide)

theorem chunksOf_sum (c : Nat) (hc : c ≠ 0) (b : Bytes) :
    ((chunksOf c b).map List.length).sum = b.length := by
  rw [← List.length_flatten, chunksOf_flatten c hc b]

/-- C2: for an upload of N bytes with chunk size C greater than 0, every
chunk returned by a read has at most C bytes, the number of chunks read is
the ceiling of N divided by C, and whenever the upload returns
successfully the final tracker entry records exactly N bytes written and
the number of per-chunk progress-assignment events in the log is that same
ceiling. -/
theorem upload_chunk_accounting (cfg : Config) (st : ServerState)
    (echo_id : PyStr) (B : Bytes) (hc : cfg.chunk_size ≠ 0) :
    (∀ ch ∈ chunksOf cfg.chunk_size B, ch.length ≤ cfg.chunk_size) ∧
    (chunksOf cfg.chunk_size B).length =
      (B.length + cfg.chunk_size - 1) / cfg.chunk_size ∧
    ∀ m st1 tr, upload_file cfg st echo_id B = .ok (m, st1, tr) →
      st1.uploadedFiles echo_id =
        some ⟨B.length, some B.length, true, some echo_id⟩ ∧
      tr.countP isAdvance = (B.length + cfg.chunk_size - 1) / cfg.chunk_size := by
  refine ⟨chunksOf_length_le cfg.chunk_size B, chunksOf_count cfg.chunk_size hc B, ?_⟩
  intro m st1 tr h
  rw [upload_file] at h
  simp only at h
  split at h
  · exact absurd h (by simp)
  · split at h
    · exact absurd h (by simp)
    · rw [Except.ok.injEq, Prod.mk.injEq, Prod.mk.injEq] at h
      obtain ⟨hm, hst1, htr1⟩ := h
      constructor
      · rw [← hst1]
        simp only [beginTransfer, updateMap_collapse, updateMap_same,
          writeLoop_written, Nat.zero_add, chunksOf_sum cfg.chunk_size hc B]
      · rw [← htr1]
        simp only [List.countP_cons, List.countP_append,
          writeLoop_countAdvance, isAdvance, List.countP_nil]
        rw [chunksOf_count cfg.chunk_size hc B]
        rfl

/-- C2 witness: the accounting at a concrete upload of 5 bytes with chunk
size 3. -/
theorem upload_chunk_accounting_witness :
    sampleConfig.chunk_size ≠ 0 ∧
    ((∀ ch ∈ chunksOf sampleConfig.chunk_size [9, 9, 9, 9, 9],
        ch.length ≤ sampleConfig.chunk_size) ∧
      (chunksOf sampleConfig.chunk_size [9, 9, 9, 9, 9]).length =
        (([9, 9, 9, 9, 9] : Bytes).length + sampleConfig.chunk_size - 1) /
          sampleConfig.chunk_size ∧
      ∀ m st1 tr, upload_file sampleConfig emptyState ('g' :: [])
          [9, 9, 9, 9, 9] = .ok (m, st1, tr) →
        st1.uploadedFiles ('g' :: []) =
          some ⟨([9, 9, 9, 9, 9] : Bytes).length,
            some ([9, 9, 9, 9, 9] : Bytes).length, true, some ('g' :: [])⟩ ∧
        tr.countP isAdvance =
          (([9, 9, 9, 9, 9] : Bytes).length + sampleConfig.chunk_size - 1) /
            sampleConfig.chunk_size) :=
  ⟨by decide, upload_chunk_accounting sampleConfig emptyState ('g' :: [])
    [9, 9, 9, 9, 9] (by decide)⟩

/-- The tracker entries assigned for the uploading identifier over a full
successful upload: the fresh initial entry, one advancing entry per chunk,
and the final complete entry. -/
theorem upload_trackStates (cfg : Config) (st : ServerState) (echo_id : PyStr)
    (B : Bytes) (m : MetaRec) (st1 : ServerState) (tr : List Ev)
    (h : upload_file cfg st echo_id B = .ok (m, st1, tr)) :
    trackStatesFor echo_id tr =
      (⟨0, none, false, none⟩ :: advEntries 0 (chunksOf cfg.chunk_size B)) ++
        [⟨((chunksOf cfg.chunk_size B).map List.length).sum,
          some ((chunksOf cfg.chunk_size B).map List.length).sum,
          true, some echo_id⟩] ∧
    st1.uploadedFiles echo_id =
      some ⟨((chunksOf cfg.chunk_size B).map List.length).sum,
        some ((chunksOf cfg.chunk_size B).map List.length).sum,
        true, some echo_id⟩ := by
  rw [upload_file] at h
  simp only at h
  split at h
  · exact absurd h (by simp)
  · split at h
    · exact absurd h (by simp)
    · rw [Except.ok.injEq, Prod.mk.injEq, Prod.mk.injEq] at h
      obtain ⟨hm, hst1, htr1⟩ := h
      constructor
      · rw [← htr1]
        simp only [trackStatesFor, List.filterMap_cons, List.filterMap_append,
          writeLoop_written, Nat.zero_add]
        rw [← trackStatesFor, writeLoop_trackStates]
        simp
      · rw [← hst1]
        simp only [beginTransfer, updateMap_collapse, updateMap_same,
          writeLoop_written, Nat.zero_add]

/-- C3: over a successful upload, every tracker state assigned for the
transfer satisfies the invariant that done implies totalSize is set and
equals bytesWritten; the done state appears only as the very last
assignment (no transitions after done becomes true), it is reached, and it
is exactly the entry left in the tracker map afterwards. -/
theorem tracker_invariant_terminal (cfg : Config) (st : ServerState)
    (echo_id : PyStr) (B : Bytes) (m : MetaRec) (st1 : ServerState)
    (tr : List Ev)
    (h : upload_file cfg st echo_id B = .ok (m, st1, tr)) :
    (∀ e ∈ trackStatesFor echo_id tr, e.done = true → e.total = some e.written) ∧
    (∀ i e, i + 1 < (trackStatesFor echo_id tr).length →
      (trackStatesFor echo_id tr)[i]? = some e → e.done = false) ∧
    (∃ ef, (trackStatesFor echo_id tr).getLast? = some ef ∧ ef.done = true ∧
      st1.uploadedFiles echo_id = some ef) := by
  obtain ⟨hss, hmap⟩ := upload_trackStates cfg st echo_id B m st1 tr h
  rw [hss]
  refine ⟨?_, ?_, ?_⟩
  · intro e he hdone
    rcases List.mem_append.mp he with h1 | h1
    · rcases List.mem_cons.mp h1 with h2 | h2
      · subst h2; simp at hdone
      · obtain ⟨hd, _⟩ := advEntries_done 0 (chunksOf cfg.chunk_size B) e h2
        rw [hd] at hdone; simp at hdone
    · rcases List.mem_singleton.mp h1 with rfl
      rfl
  · intro i e hi hget
    have hlen : i < (⟨0, none, false, none⟩ ::
        advEntries 0 (chunksOf cfg.chunk_size B) : List UploadEntry).length := by
      simp only [List.length_append, List.length_singleton] at hi
      omega
    rw [List.getElem?_append_left hlen] at hget
    have hmem : e ∈ (⟨0, none, false, none⟩ ::
        advEntries 0 (chunksOf cfg.chunk_size B) : List UploadEntry) := by
      obtain ⟨hw, he⟩ := List.getElem?_eq_some_iff.mp hget
      exact he ▸ List.getElem_mem hw
    rcases List.mem_cons.mp hmem with h2 | h2
    · subst h2; rfl
    · exact (advEntries_done 0 (chunksOf cfg.chunk_size B) e h2).1
  · refine ⟨_, ?_, rfl, hmap⟩
    rw [List.getLast?_concat]

/-- C3 witness: the tracker lifecycle at a concrete successful upload. -/
theorem tracker_invariant_terminal_witness :
    ∃ m st1 tr, upload_file sampleConfig emptyState ('h' :: [])
        [1, 2, 3, 4] = .ok (m, st1, tr) ∧
      (∀ e ∈ trackStatesFor ('h' :: []) tr, e.done = true →
        e.total = some e.written) ∧
      (∀ i e, i + 1 < (trackStatesFor ('h' :: []) tr).length →
        (trackStatesFor ('h' :: []) tr)[i]? = some e → e.done = false) ∧
      (∃ ef, (trackStatesFor ('h' :: []) tr).getLast? = some ef ∧
        ef.done = true ∧ st1.uploadedFiles ('h' :: []) = some ef) := by
  have hup := upload_file_eq sampleConfig emptyState ('h' :: []) [1, 2, 3, 4]
    (by decide) (by decide)
  exact ⟨_, _, _, hup,
    tracker_invariant_terminal sampleConfig emptyState ('h' :: [])
      [1, 2, 3, 4] _ _ _ hup⟩

/-- A local file at path p is only ever deleted after the Drive object at
key k has been pushed: every removeFile event for p is preceded in the
event log by a putDrive event for k. -/
def removesAfterPut (tr : List Ev) (k p : PyStr) : Prop :=
  ∀ n : Nat, tr[n]? = some (Ev.removeFile p) →
    ∃ j : Nat, j < n ∧ tr[j]? = some (Ev.putDrive k)

theorem removesAfterPut_suffix (pre : List Ev) (dk mk fp mp : PyStr)
    (e3 e4 : Ev) (hfp : fp ≠ mp)
    (hpre : ∀ p, Ev.removeFile p ∉ pre)
    (h3 : ∀ p, e3 ≠ Ev.removeFile p) (h4 : ∀ p, e4 ≠ Ev.removeFile p) :
    removesAfterPut (pre ++ [Ev.putDrive dk, Ev.removeFile fp, e3, e4,
      Ev.putDrive mk, Ev.removeFile mp]) dk fp ∧
    removesAfterPut (pre ++ [Ev.putDrive dk, Ev.removeFile fp, e3, e4,
      Ev.putDrive mk, Ev.removeFile mp]) mk mp := by
  constructor
  · intro n hn
    rcases Nat.lt_or_ge n pre.length with hlt | hge
    · exfalso
      rw [List.getElem?_append_left hlt] at hn
      obtain ⟨hw, he⟩ := List.getElem?_eq_some_iff.mp hn
      exact hpre _ (he ▸ List.getElem_mem hw)
    · obtain ⟨k, rfl⟩ : ∃ k, n = pre.length + k := ⟨n - pre.length, by omega⟩
      rw [List.getElem?_append_right hge, Nat.add_sub_cancel_left] at hn
      have hk6 : k < 6 := by
        have := (List.getElem?_eq_some_iff.mp hn).1
        simpa using this
      interval_cases k
      · simp at hn
      · refine ⟨pre.length, by omega, ?_⟩
        rw [List.getElem?_append_right (Nat.le_refl _), Nat.sub_self]
        rfl
      · exact absurd (by simpa using hn) (h3 fp)
      · exact absurd (by simpa using hn) (h4 fp)
      · simp at hn
      · have hmp : mp = fp := by simpa using hn
        exact absurd hmp.symm hfp
  · intro n hn
    rcases Nat.lt_or_ge n pre.length with hlt | hge
    · exfalso
      rw [List.getElem?_append_left hlt] at hn
      obtain ⟨hw, he⟩ := List.getElem?_eq_some_iff.mp hn
      exact hpre _ (he ▸ List.getElem_mem hw)
    · obtain ⟨k, rfl⟩ : ∃ k, n = pre.length + k := ⟨n - pre.length, by omega⟩
      rw [List.getElem?_append_right hge, Nat.add_sub_cancel_left] at hn
      have hk6 : k < 6 := by
        have := (List.getElem?_eq_some_iff.mp hn).1
        simpa using this
      interval_cases k
      · simp at hn
      · exact absurd (by simpa using hn) hfp
      · exact absurd (by simpa using hn) (h3 mp)
      · exact absurd (by simpa using hn) (h4 mp)
      · simp at hn
      · refine ⟨pre.length + 4, by omega, ?_⟩
        rw [List.getElem?_append_right (by omega), Nat.add_sub_cancel_left]
        rfl

/-- C7: a successful upload pushes both the data file and the descriptor
file to the remote store, deletes each local copy only after the
corresponding remote put, and leaves neither the data file nor the
descriptor file in the local cache. -/
theorem upload_remote_push_and_purge (cfg : Config) (st : ServerState)
    (dr dn echo_id : PyStr) (B : Bytes)
    (hwf : WellFormedCfg cfg dr dn) (hid : echo_id.head? ≠ some sep)
    (hc : cfg.chunk_size ≠ 0) :
    ∀ m st1 tr, upload_file cfg st echo_id B = .ok (m, st1, tr) →
      st1.fs (get_filepath cfg.base_dir echo_id) = none ∧
      st1.fs (get_filepath cfg.base_dir (echo_id ++ metaSuffix)) = none ∧
      st1.drive (get_drive_filepath cfg.base_dir echo_id) =
        some (.bytes B) ∧
      (∃ mr : MetaRec,
        st1.drive (get_drive_filepath cfg.base_dir (echo_id ++ metaSuffix)) =
          some (.metaRec mr)) ∧
      removesAfterPut tr (get_drive_filepath cfg.base_dir echo_id)
        (get_filepath cfg.base_dir echo_id) ∧
      removesAfterPut tr (get_drive_filepath cfg.base_dir (echo_id ++ metaSuffix))
        (get_filepath cfg.base_dir (echo_id ++ metaSuffix)) := by
  intro m st1 tr h
  have hid2 := metaSuffix_head echo_id hid
  have hp1 := wf_localizes hwf echo_id hid
  have hp2 := wf_localizes hwf (echo_id ++ metaSuffix) hid2
  obtain ⟨hb, hroot, hdn1, hdn2, hdr1, hdr2⟩ := hwf
  have hfp : get_filepath cfg.base_dir echo_id ≠
      get_filepath cfg.base_dir (echo_id ++ metaSuffix) := by
    rw [hb, get_filepath_eq dr dn echo_id hdn1 hdn2 hid,
      get_filepath_eq dr dn _ hdn1 hdn2 hid2]
    exact append_meta_ne _ echo_id
  have hdk : get_drive_filepath cfg.base_dir echo_id ≠
      get_drive_filepath cfg.base_dir (echo_id ++ metaSuffix) := by
    rw [hb, get_drive_filepath_eq dr dn echo_id hdn1 hdn2 hid,
      get_drive_filepath_eq dr dn _ hdn1 hdn2 hid2]
    exact append_meta_ne dn echo_id
  rw [upload_file_eq cfg st echo_id B hp1 hp2, Except.ok.injEq,
    Prod.mk.injEq, Prod.mk.injEq] at h
  obtain ⟨hm, hst1, htr1⟩ := h
  have hpre : ∀ p, Ev.removeFile p ∉
      (Ev.track TrackKind.init echo_id ⟨0, none, false, none⟩ ::
        (writeLoop echo_id (get_filepath cfg.base_dir echo_id)
          (chunksOf cfg.chunk_size B) [] 0
          (updateMap st.fs (get_filepath cfg.base_dir echo_id)
            (some (.bytes [])))).2.2) := by
    intro p hp
    rcases List.mem_cons.mp hp with h1 | h1
    · simp at h1
    · rcases writeLoop_trace_shape echo_id (get_filepath cfg.base_dir echo_id)
        (chunksOf cfg.chunk_size B) [] 0
        (updateMap st.fs (get_filepath cfg.base_dir echo_id)
          (some (.bytes []))) _ h1 with h2 | ⟨w', h2⟩ <;> simp at h2
  have hord := removesAfterPut_suffix
    (Ev.track TrackKind.init echo_id ⟨0, none, false, none⟩ ::
      (writeLoop echo_id (get_filepath cfg.base_dir echo_id)
        (chunksOf cfg.chunk_size B) [] 0
        (updateMap st.fs (get_filepath cfg.base_dir echo_id)
          (some (.bytes [])))).2.2)
    (get_drive_filepath cfg.base_dir echo_id)
    (get_drive_filepath cfg.base_dir (echo_id ++ metaSuffix))
    (get_filepath cfg.base_dir echo_id)
    (get_filepath cfg.base_dir (echo_id ++ metaSuffix))
    (Ev.track TrackKind.complete echo_id
      ⟨((chunksOf cfg.chunk_size B).map List.length).sum,
        some ((chunksOf cfg.chunk_size B).map List.length).sum,
        true, some echo_id⟩)
    (Ev.writeFile (get_filepath cfg.base_dir (echo_id ++ metaSuffix)))
    hfp hpre (by intro p; simp) (by intro p; simp)
  refine ⟨?_, ?_, ?_, ?_, ?_, ?_⟩
  · rw [← hst1]
    simp only []
    rw [updateMap_other _ _ _ _ hfp, updateMap_same]
  · rw [← hst1]
    simp only []
    rw [updateMap_same]
  · rw [← hst1]
    simp only []
    rw [updateMap_other _ _ _ _ hdk, updateMap_same,
      chunksOf_flatten cfg.chunk_size hc B]
  · rw [← hst1]
    simp only []
    rw [updateMap_same]
    exact ⟨_, rfl⟩
  · rw [← htr1]
    exact hord.1
  · rw [← htr1]
    exact hord.2

/-- C7 witness: the push-then-purge behaviour at a concrete upload. -/
theorem upload_remote_push_and_purge_witness :
    WellFormedCfg sampleConfig ('/' :: 'd' :: 'a' :: 't' :: 'a' :: [])
      ('c' :: 'a' :: 'c' :: 'h' :: 'e' :: []) ∧
    ∀ m st1 tr, upload_file sampleConfig emptyState ('d' :: []) [4, 5] =
        .ok (m, st1, tr) →
      st1.fs (get_filepath sampleConfig.base_dir ('d' :: [])) = none ∧
      st1.fs (get_filepath sampleConfig.base_dir (('d' :: []) ++ metaSuffix)) =
        none ∧
      st1.drive (get_drive_filepath sampleConfig.base_dir ('d' :: [])) =
        some (.bytes [4, 5]) ∧
      (∃ mr : MetaRec,
        st1.drive (get_drive_filepath sampleConfig.base_dir
          (('d' :: []) ++ metaSuffix)) = some (.metaRec mr)) ∧
      removesAfterPut tr (get_drive_filepath sampleConfig.base_dir ('d' :: []))
        (get_filepath sampleConfig.base_dir ('d' :: [])) ∧
      removesAfterPut tr
        (get_drive_filepath sampleConfig.base_dir (('d' :: []) ++ metaSuffix))
        (get_filepath sampleConfig.base_dir (('d' :: []) ++ metaSuffix)) :=
  ⟨by decide,
    upload_remote_push_and_purge sampleConfig emptyState
      ('/' :: 'd' :: 'a' :: 't' :: 'a' :: [])
      ('c' :: 'a' :: 'c' :: 'h' :: 'e' :: []) ('d' :: []) [4, 5]
      (by decide) (by decide) (by decide)⟩

/-- C9: when the file for an identifier is present in the local cache,
download serves it without contacting the remote store, returns the state
unchanged (the local file is neither deleted nor modified), and an
immediately repeated download returns the very same result; and in all
cases, cache hit or remote rehydration alike, a successful download
leaves the served content in the local cache file, so an immediately
repeated download is served from the local cache with the same bytes and
without any remote get. -/
theorem download_cache_hit_frame (cfg : Config) (st : ServerState)
    (echo_id : PyStr) :
    (∀ d : FileData, st.fs (get_filepath cfg.base_dir echo_id) = some d →
      download_file cfg st echo_id =
        .ok (d, st, [Ev.readFile (get_filepath cfg.base_dir echo_id)]) ∧
      (∀ res st1 tr, download_file cfg st echo_id = .ok (res, st1, tr) →
        (∀ k, Ev.getDrive k ∉ tr) ∧ st1 = st ∧
        download_file cfg st1 echo_id = .ok (res, st1, tr))) ∧
    (∀ res st1 tr, download_file cfg st echo_id = .ok (res, st1, tr) →
      st1.fs (get_filepath cfg.base_dir echo_id) = some res ∧
      download_file cfg st1 echo_id =
        .ok (res, st1, [Ev.readFile (get_filepath cfg.base_dir echo_id)])) := by
  have hHit : ∀ (st' : ServerState) (d : FileData),
      st'.fs (get_filepath cfg.base_dir echo_id) = some d →
      download_file cfg st' echo_id =
        .ok (d, st', [Ev.readFile (get_filepath cfg.base_dir echo_id)]) := by
    intro st' d h
    rw [download_file]
    simp only [h]
  constructor
  · intro d h
    have h1 := hHit st d h
    refine ⟨h1, ?_⟩
    intro res st1 tr h2
    rw [h1, Except.ok.injEq, Prod.mk.injEq, Prod.mk.injEq] at h2
    obtain ⟨hres, hst1, htr⟩ := h2
    subst hres hst1 htr
    exact ⟨by intro k hk; simp at hk, rfl, h1⟩
  · intro res st1 tr h
    rw [download_file] at h
    simp only at h
    split at h
    · rename_i d hfs
      rw [Except.ok.injEq, Prod.mk.injEq, Prod.mk.injEq] at h
      obtain ⟨hres, hst1, htr⟩ := h
      have hfs2 : st1.fs (get_filepath cfg.base_dir echo_id) = some res := by
        rw [← hst1, ← hres]
        exact hfs
      exact ⟨hfs2, hHit st1 res hfs2⟩
    · split at h
      · exact absurd h (by simp)
      · split at h
        · rename_i d' hfs'
          rw [Except.ok.injEq, Prod.mk.injEq, Prod.mk.injEq] at h
          obtain ⟨hres, hst1, htr⟩ := h
          have hst1fs : st1.fs (get_filepath cfg.base_dir echo_id) =
              some res := by
            rw [← hst1, ← hres]
            exact hfs'
          exact ⟨hst1fs, hHit st1 res hst1fs⟩
        · exact absurd h (by simp)

/-- C9 witness: a concrete cache-hit download served locally, and a
concrete rehydrating download after which the materialized file stays in
the local cache and the immediate repeat is served from it. -/
theorem download_cache_hit_frame_witness :
    (download_file sampleConfig
        (ServerState.mk
          (updateMap (fun _ => none)
            (get_filepath sampleConfig.base_dir ('w' :: []))
            (some (.bytes [8, 8]))) (fun _ => none) (fun _ => none))
        ('w' :: []) =
      .ok (.bytes [8, 8],
        ServerState.mk
          (updateMap (fun _ => none)
            (get_filepath sampleConfig.base_dir ('w' :: []))
            (some (.bytes [8, 8]))) (fun _ => none) (fun _ => none),
        [Ev.readFile (get_filepath sampleConfig.base_dir ('w' :: []))])) ∧
    ((ServerState.mk
        (updateMap (fun _ => none)
          (pjoin sampleConfig.driveRoot
            (get_drive_filepath sampleConfig.base_dir ('w' :: [])))
          (some (.bytes [3])))
        (updateMap (fun _ => none)
          (get_drive_filepath sampleConfig.base_dir ('w' :: []))
          (some (.bytes [3])))
        (fun _ => none)).fs
        (get_filepath sampleConfig.base_dir ('w' :: [])) =
        some (.bytes [3]) ∧
      download_file sampleConfig
        (ServerState.mk
          (updateMap (fun _ => none)
            (pjoin sampleConfig.driveRoot
              (get_drive_filepath sampleConfig.base_dir ('w' :: [])))
            (some (.bytes [3])))
          (updateMap (fun _ => none)
            (get_drive_filepath sampleConfig.base_dir ('w' :: []))
            (some (.bytes [3])))
          (fun _ => none)) ('w' :: []) =
        .ok (.bytes [3],
          ServerState.mk
            (updateMap (fun _ => none)
              (pjoin sampleConfig.driveRoot
                (get_drive_filepath sampleConfig.base_dir ('w' :: [])))
              (some (.bytes [3])))
            (updateMap (fun _ => none)
              (get_drive_filepath sampleConfig.base_dir ('w' :: []))
              (some (.bytes [3])))
            (fun _ => none),
          [Ev.readFile (get_filepath sampleConfig.base_dir ('w' :: []))])) :=
  ⟨((download_cache_hit_frame sampleConfig
      (ServerState.mk
        (updateMap (fun _ => none)
          (get_filepath sampleConfig.base_dir ('w' :: []))
          (some (.bytes [8, 8]))) (fun _ => none) (fun _ => none))
      ('w' :: [])).1 (.bytes [8, 8]) (by decide)).1,
    (download_cache_hit_frame sampleConfig
      (ServerState.mk (fun _ => none)
        (updateMap (fun _ => none)
          (get_drive_filepath sampleConfig.base_dir ('w' :: []))
          (some (.bytes [3])))
        (fun _ => none))
      ('w' :: [])).2 (.bytes [3])
      (ServerState.mk
        (updateMap (fun _ => none)
          (pjoin sampleConfig.driveRoot
            (get_drive_filepath sampleConfig.base_dir ('w' :: [])))
          (some (.bytes [3])))
        (updateMap (fun _ => none)
          (get_drive_filepath sampleConfig.base_dir ('w' :: []))
          (some (.bytes [3])))
        (fun _ => none))
      [Ev.getDrive (get_drive_filepath sampleConfig.base_dir ('w' :: [])),
        Ev.readFile (get_filepath sampleConfig.base_dir ('w' :: []))]
      rfl⟩

/-- POSIX resolution of dot and dot-dot components of an absolute path:
split on separators, skip empty and single-dot segments, let each dot-dot
remove the preceding segment, and reassemble.  This is not part of the
source; it only states which file a cache path containing dot-dot
components actually addresses on the filesystem. -/
def normStack (acc : List PyStr) : List PyStr → List PyStr
  | [] => acc.reverse
  | s :: rest =>
    if s = [] ∨ s = '.' :: [] then normStack acc rest
    else if s = '.' :: '.' :: [] then normStack acc.tail rest
    else normStack (s :: acc) rest

/-- Resolve an absolute path to its canonical form. -/
def resolveAbs (p : PyStr) : PyStr :=
  sep :: List.intercalate (sep :: []) (normStack [] (splitOnSep p))

/-- C10: get_filepath joins the cache root and the identifier verbatim,
with no normalization or sanitization, and both upload and download
address the local cache exclusively through it; consequently an
identifier containing separators addresses a nested path rather than a
flat per-transfer name, and an identifier with dot-dot components
addresses a file outside the cache root once resolved by the filesystem. -/
theorem filepath_verbatim_join :
    (∀ base id : PyStr, base ≠ [] → base.getLast? ≠ some sep →
      id.head? ≠ some sep → get_filepath base id = base ++ sep :: id) ∧
    get_filepath "/srv/cache".data "../secret".data =
      "/srv/cache/../secret".data ∧
    resolveAbs "/srv/cache/../secret".data = "/srv/secret".data ∧
    ("/srv/secret".data.take "/srv/cache".data.length ≠ "/srv/cache".data) ∧
    get_filepath "/srv/cache".data "sub/x".data = "/srv/cache/sub/x".data ∧
    (∀ cfg st echo_id B m st1 tr,
      upload_file cfg st echo_id B = .ok (m, st1, tr) →
      ∀ p, Ev.writeFile p ∈ tr →
        p = get_filepath cfg.base_dir echo_id ∨
        p = get_filepath cfg.base_dir (echo_id ++ metaSuffix)) ∧
    (∀ cfg st echo_id res st1 tr,
      download_file cfg st echo_id = .ok (res, st1, tr) →
      ∀ p, Ev.readFile p ∈ tr → p = get_filepath cfg.base_dir echo_id) := by
  refine ⟨?_, by decide, by decide, by decide, by decide, ?_, ?_⟩
  · intro base id h1 h2 h3
    exact pjoin_eq_append base id h1 h2 h3
  · intro cfg st echo_id B m st1 tr h p hp
    rw [upload_file] at h
    simp only at h
    split at h
    · exact absurd h (by simp)
    · split at h
      · exact absurd h (by simp)
      · rw [Except.ok.injEq, Prod.mk.injEq, Prod.mk.injEq] at h
        obtain ⟨hm, hst1, htr1⟩ := h
        rw [← htr1] at hp
        rcases List.mem_append.mp hp with h1 | h1
        · rcases List.mem_cons.mp h1 with h2 | h2
          · simp at h2
          · rcases writeLoop_trace_shape echo_id
              (get_filepath cfg.base_dir echo_id)
              (chunksOf cfg.chunk_size B) [] 0
              (updateMap st.fs (get_filepath cfg.base_dir echo_id)
                (some (.bytes []))) _ h2 with h3 | ⟨w', h3⟩
            · left
              first
              | exact h3
              | (injection h3 with h4; try exact h4)
            · simp at h3
        · right
          simp only [List.mem_cons, List.mem_singleton] at h1
          rcases h1 with h2 | h2 | h2 | h2 | h2 | h2
          · exact absurd h2 (by simp)
          · exact absurd h2 (by simp)
          · exact absurd h2 (by simp)
          · first
            | exact h2
            | (injection h2 with h4; try exact h4)
          · exact absurd h2 (by simp)
          · exact absurd h2 (by simp)
  · intro cfg st echo_id res st1 tr h p hp
    rw [download_file] at h
    simp only at h
    split at h
    · rw [Except.ok.injEq, Prod.mk.injEq, Prod.mk.injEq] at h
      obtain ⟨hres, hst1, htr1⟩ := h
      rw [← htr1] at hp
      simp only [List.mem_singleton] at hp
      first
      | exact hp
      | (injection hp with h4; try exact h4)
    · split at h
      · exact absurd h (by simp)
      · split at h
        · rw [Except.ok.injEq, Prod.mk.injEq, Prod.mk.injEq] at h
          obtain ⟨hres, hst1, htr1⟩ := h
          rw [← htr1] at hp
          simp only [List.mem_cons, List.mem_singleton] at hp
          rcases hp with h2 | h2 | h2
          · exact absurd h2 (by simp)
          · first
            | exact h2
            | (injection h2 with h4; try exact h4)
          · simp at h2
        · exact absurd h (by simp)

/-- C10 witness: the verbatim join at a concrete cache root and
identifier. -/
theorem filepath_verbatim_join_witness :
    get_filepath "/srv/cache".data "up.bin".data = "/srv/cache/up.bin".data := by
  rw [filepath_verbatim_join.1 "/srv/cache".data "up.bin".data
    (by decide) (by decide) (by decide)]
  decide

/-- C6 counterexample: downloading an identifier that was never uploaded
fails, but the error the caller sees is the Drive miss error
ObjectNotFound itself, not TransferNotFound: download_file contains no
error conversion. -/
theorem download_missing_error_counterexample :
    download_file sampleConfig emptyState ('x' :: []) =
      .error .ObjectNotFound ∧
    Err.ObjectNotFound ≠ Err.TransferNotFound :=
  ⟨rfl, by decide⟩

/-- C6 amended: download of a never-uploaded identifier (no local file, no
Drive object) fails, and the remote miss ObjectNotFound propagates to the
caller unchanged; the code performs no conversion to TransferNotFound. -/
theorem download_missing_propagates_objectnotfound (cfg : Config)
    (st : ServerState) (echo_id : PyStr)
    (h1 : st.fs (get_filepath cfg.base_dir echo_id) = none)
    (h2 : st.drive (get_drive_filepath cfg.base_dir echo_id) = none) :
    download_file cfg st echo_id = .error .ObjectNotFound := by
  rw [download_file]
  simp only [h1, h2]

/-- C6 amended witness: a concrete never-uploaded identifier. -/
theorem download_missing_propagates_objectnotfound_witness :
    download_file sampleConfig emptyState ('y' :: []) =
      .error .ObjectNotFound :=
  download_missing_propagates_objectnotfound sampleConfig emptyState
    ('y' :: []) rfl rfl

/-- C5 counterexample: with a transfer for identifier x active (begun and
not completed, done still false), calling upload again for x does not fail
with any duplicate-transfer error: the begin assignment silently replaces
the tracker entry with a fresh state and the upload runs to success. -/
theorem duplicate_transfer_counterexample :
    beginTransfer
        (updateMap (fun _ => none) ('x' :: []) (some ⟨5, none, false, none⟩))
        ('x' :: []) ('x' :: []) = some ⟨0, none, false, none⟩ ∧
    (upload_file sampleConfig
        ⟨fun _ => none, fun _ => none,
          updateMap (fun _ => none) ('x' :: [])
            (some ⟨5, none, false, none⟩)⟩
        ('x' :: []) [7]).toBool = true := by
  refine ⟨rfl, ?_⟩
  rw [upload_file_eq sampleConfig
    ⟨fun _ => none, fun _ => none,
      updateMap (fun _ => none) ('x' :: []) (some ⟨5, none, false, none⟩)⟩
    ('x' :: []) [7] (by decide) (by decide)]
  rfl

/-- C5 amended: beginning a transfer never fails: the tracker assignment
unconditionally overwrites any existing entry, active or not, with a fresh
state (bytesWritten 0, totalSize absent, done false); every successful
upload log starts with exactly that fresh assignment, and an upload begun
while a transfer for the same identifier is still active (tracked and not
done) succeeds rather than erroring. -/
theorem begin_overwrites_amended (echo_id : PyStr)
    (mp : PyStr → Option UploadEntry) :
    beginTransfer mp echo_id echo_id = some ⟨0, none, false, none⟩ ∧
    (∀ cfg st B m st1 tr, upload_file cfg st echo_id B = .ok (m, st1, tr) →
      tr.head? = some (.track .init echo_id ⟨0, none, false, none⟩)) ∧
    (∀ (cfg : Config) (st : ServerState) (dr dn : PyStr) (B : Bytes)
        (e : UploadEntry), WellFormedCfg cfg dr dn →
      echo_id.head? ≠ some sep →
      st.uploadedFiles echo_id = some e → e.done = false →
      (upload_file cfg st echo_id B).toBool = true) := by
  refine ⟨updateMap_same _ _ _, ?_, ?_⟩
  · intro cfg st B m st1 tr h
    rw [upload_file] at h
    simp only at h
    split at h
    · exact absurd h (by simp)
    · split at h
      · exact absurd h (by simp)
      · rw [Except.ok.injEq, Prod.mk.injEq, Prod.mk.injEq] at h
        obtain ⟨hm, hst1, htr1⟩ := h
        rw [← htr1]
        rfl
  · intro cfg st dr dn B e hwf hid hact hdone
    rw [upload_file_eq cfg st echo_id B (wf_localizes hwf echo_id hid)
      (wf_localizes hwf (echo_id ++ metaSuffix) (metaSuffix_head echo_id hid))]
    rfl

/-- C5 amended witness: the overwrite at a concretely active transfer. -/
theorem begin_overwrites_amended_witness :
    beginTransfer
        (updateMap (fun _ => none) ('z' :: []) (some ⟨9, none, false, none⟩))
        ('z' :: []) ('z' :: []) = some ⟨0, none, false, none⟩ ∧
    (upload_file sampleConfig
        ⟨fun _ => none, fun _ => none,
          updateMap (fun _ => none) ('z' :: [])
            (some ⟨9, none, false, none⟩)⟩
        ('z' :: []) [1, 2]).toBool = true := by
  have h := begin_overwrites_amended ('z' :: [])
    (updateMap (fun _ => none) ('z' :: []) (some ⟨9, none, false, none⟩))
  refine ⟨h.1, ?_⟩
  exact h.2.2 sampleConfig
    ⟨fun _ => none, fun _ => none,
      updateMap (fun _ => none) ('z' :: []) (some ⟨9, none, false, none⟩)⟩
    ('/' :: 'd' :: 'a' :: 't' :: 'a' :: [])
    ('c' :: 'a' :: 'c' :: 'h' :: 'e' :: []) [1, 2]
    ⟨9, none, false, none⟩ (by decide) (by decide) (by decide) rfl

/-- C8 counterexample: with cache root /data/cache, the absolute
identifier /etc/passwd yields drive key /etc/passwd: os.path.join discards
the base directory name when the second component is absolute, so the key
is not baseDirName/id and it is an absolute path. -/
theorem drive_key_absolute_counterexample :
    get_drive_filepath "/data/cache".data "/etc/passwd".data =
      "/etc/passwd".data ∧
    ("/etc/passwd".data.head? = some sep) ∧
    get_drive_filepath "/data/cache".data "/etc/passwd".data ≠
      "cache".data ++ sep :: "/etc/passwd".data := by
  refine ⟨by decide, by decide, by decide⟩

theorem exists_last_sep {s : PyStr} (h : sep ∈ s) :
    ∃ xs ys, s = xs ++ sep :: ys ∧ sep ∉ ys := by
  induction s with
  | nil => simp at h
  | cons c rest ih =>
    by_cases hr : sep ∈ rest
    · obtain ⟨xs, ys, heq, hys⟩ := ih hr
      exact ⟨c :: xs, ys, by rw [heq, List.cons_append], hys⟩
    · have hc : c = sep := by
        rcases List.mem_cons.mp h with h1 | h1
        · exact h1.symm
        · exact absurd h1 hr
      exact ⟨[], rest, by rw [hc, List.nil_append], hr⟩

theorem lastComp_wf {s : PyStr} (h1 : s ≠ []) (h2 : s.getLast? ≠ some sep) :
    (splitOnSep s).getLastD [] ≠ [] ∧ sep ∉ (splitOnSep s).getLastD [] := by
  by_cases hs : sep ∈ s
  · obtain ⟨xs, ys, rfl, hys⟩ := exists_last_sep hs
    rw [lastComp_append_sep hys]
    constructor
    · intro hy
      subst hy
      exact h2 (List.getLast?_concat xs)
    · exact hys
  · rw [lastComp_sep_free hs]
    exact ⟨h1, hs⟩

/-- C8 amended: whenever base_dir is nonempty and has no trailing
separator and the identifier does not itself begin with a separator, the
drive key is exactly the last path component of base_dir joined with the
identifier, and it is relative (its first character is not the
separator); moreover every putDrive key of a successful upload is one of
the two keys derived this way (for the identifier and for its .meta
sibling) and every getDrive key of a download is the one derived for the
identifier. -/
theorem drive_key_relative_amended (base_dir echo_id : PyStr)
    (hb1 : base_dir ≠ []) (hb2 : base_dir.getLast? ≠ some sep)
    (hid : echo_id.head? ≠ some sep) :
    get_drive_filepath base_dir echo_id =
      (splitOnSep base_dir).getLastD [] ++ sep :: echo_id ∧
    (get_drive_filepath base_dir echo_id).head? ≠ some sep ∧
    (∀ cfg st B m st1 tr, Config.base_dir cfg = base_dir →
      upload_file cfg st echo_id B = .ok (m, st1, tr) →
      ∀ k, Ev.putDrive k ∈ tr →
        k = get_drive_filepath base_dir echo_id ∨
        k = get_drive_filepath base_dir (echo_id ++ metaSuffix)) ∧
    (∀ cfg st res st1 tr, Config.base_dir cfg = base_dir →
      download_file cfg st echo_id = .ok (res, st1, tr) →
      ∀ k, Ev.getDrive k ∈ tr → k = get_drive_filepath base_dir echo_id) := by
  obtain ⟨hl1, hl2⟩ := lastComp_wf hb1 hb2
  have hkey : get_drive_filepath base_dir echo_id =
      (splitOnSep base_dir).getLastD [] ++ sep :: echo_id := by
    rw [get_drive_filepath]
    exact pjoin_eq_append _ _ hl1 (sep_free_getLast hl2) hid
  refine ⟨hkey, ?_, ?_, ?_⟩
  · rw [hkey]
    match hlc : (splitOnSep base_dir).getLastD [] with
    | [] => exact absurd hlc hl1
    | c :: t =>
      simp only [List.cons_append, List.head?_cons, ne_eq, Option.some.injEq]
      intro hcs
      rw [hlc] at hl2
      exact hl2 (hcs ▸ List.mem_cons_self c t)
  · intro cfg st B m st1 tr hbase h k hk
    rw [upload_file] at h
    simp only at h
    split at h
    · exact absurd h (by simp)
    · split at h
      · exact absurd h (by simp)
      · rw [Except.ok.injEq, Prod.mk.injEq, Prod.mk.injEq] at h
        obtain ⟨hm, hst1, htr1⟩ := h
        rw [← htr1] at hk
        rw [← hbase]
        rcases List.mem_append.mp hk with h1 | h1
        · rcases List.mem_cons.mp h1 with h2 | h2
          · simp at h2
          · rcases writeLoop_trace_shape echo_id
              (get_filepath cfg.base_dir echo_id)
              (chunksOf cfg.chunk_size B) [] 0
              (updateMap st.fs (get_filepath cfg.base_dir echo_id)
                (some (.bytes []))) _ h2 with h3 | ⟨w', h3⟩ <;> simp at h3
        · simp only [List.mem_cons, List.mem_singleton] at h1
          rcases h1 with h2 | h2 | h2 | h2 | h2 | h2
          · left
            first
            | exact h2
            | (injection h2 with h4; try exact h4)
          · exact absurd h2 (by simp)
          · exact absurd h2 (by simp)
          · exact absurd h2 (by simp)
          · right
            first
            | exact h2
            | (injection h2 with h4; try exact h4)
          · exact absurd h2 (by simp)
  · intro cfg st res st1 tr hbase h k hk
    rw [download_file] at h
    simp only at h
    split at h
    · rw [Except.ok.injEq, Prod.mk.injEq, Prod.mk.injEq] at h
      obtain ⟨hres, hst1, htr1⟩ := h
      rw [← htr1] at hk
      simp at hk
    · split at h
      · exact absurd h (by simp)
      · split at h
        · rw [Except.ok.injEq, Prod.mk.injEq, Prod.mk.injEq] at h
          obtain ⟨hres, hst1, htr1⟩ := h
          rw [← htr1] at hk
          rw [← hbase]
          simp only [List.mem_cons, List.mem_singleton] at hk
          rcases hk with h2 | h2 | h2
          · first
            | exact h2
            | (injection h2 with h4; try exact h4)
          · exact absurd h2 (by simp)
          · simp at h2
        · exact absurd h (by simp)

/-- C8 amended witness: the relative key at a concrete cache root and
identifier. -/
theorem drive_key_relative_amended_witness :
    get_drive_filepath "/data/cache".data "f.txt".data =
      (splitOnSep "/data/cache".data).getLastD [] ++ sep :: "f.txt".data ∧
    (get_drive_filepath "/data/cache".data "f.txt".data).head? ≠ some sep :=
  ⟨(drive_key_relative_amended "/data/cache".data "f.txt".data
      (by decide) (by decide) (by decide)).1,
    (drive_key_relative_amended "/data/cache".data "f.txt".data
      (by decide) (by decide) (by decide)).2.1⟩

theorem rfindAux_none {c : Char} {s : PyStr} (h : c ∉ s) :
    rfindAux c s = none := by
  induction s with
  | nil => rfl
  | cons x xs ih =>
    have hx : x ≠ c := fun hx => h (hx ▸ List.mem_cons_self x xs)
    have hr : c ∉ xs := fun hm => h (List.mem_cons_of_mem x hm)
    rw [rfindAux, ih hr, if_neg hx]

theorem rfindAux_last (c : Char) (pre post : PyStr) (h : c ∉ post) :
    rfindAux c (pre ++ c :: post) = some pre.length := by
  induction pre with
  | nil =>
    rw [List.nil_append, rfindAux, rfindAux_none h, if_pos rfl]
    rfl
  | cons x xs ih =>
    rw [List.cons_append, rfindAux, ih]
    rfl

/-- The display-name rule exactly as the claim words it: remove the
portion after the last dot together with that dot; when no dot exists the
identifier is unchanged.  This follows the claim text, not the source. -/
def claimDisplayName (id : PyStr) : PyStr :=
  match rfindAux '.' id with
  | none => id
  | some d => id.take d

/-- C4 counterexample: for the identifier .gitignore the claim rule
removes the whole name (the portion after the last dot, and the dot), but
the code uses os.path.splitext, which does not treat a leading dot as an
extension separator: the upload metadata carries display_name .gitignore,
which is neither the empty string nor the bare dot. -/
theorem display_name_claim_counterexample :
    (splitext ".gitignore".data).1 = ".gitignore".data ∧
    claimDisplayName ".gitignore".data = [] ∧
    (".gitignore".data ≠ ([] : PyStr)) ∧
    (".gitignore".data ≠ ".".data) ∧
    (upload_file sampleConfig emptyState ".gitignore".data [1]).map
      (fun x => x.1.display_name) = .ok ".gitignore".data := by
  refine ⟨by decide, by decide, by decide, by decide, ?_⟩
  rw [upload_file_eq sampleConfig emptyState ".gitignore".data [1]
    (by decide) (by decide)]
  rw [Except.map]
  simp only
  rw [Except.ok.injEq]
  decide

/-- C4 amended: display_name is os.path.splitext of the identifier: for a
separator-free identifier with no dot the identifier is unchanged; when
the identifier splits as pre ++ dot ++ post with no dot in post, the
display name is pre whenever pre has a non-dot character, but the
identifier stays unchanged when pre consists only of dots (dotfiles such
as .gitignore); and the metadata of every successful upload carries
exactly this display name. -/
theorem display_name_splitext_amended (id : PyStr) (hsep : sep ∉ id) :
    ('.' ∉ id → (splitext id).1 = id) ∧
    (∀ pre post : PyStr, id = pre ++ '.' :: post → '.' ∉ post →
      ((∃ c ∈ pre, c ≠ '.') → (splitext id).1 = pre) ∧
      ((∀ c ∈ pre, c = '.') → (splitext id).1 = id)) ∧
    (∀ cfg st B m st1 tr, upload_file cfg st id B = .ok (m, st1, tr) →
      m.display_name = (splitext id).1) := by
  refine ⟨?_, ?_, ?_⟩
  · intro hdot
    rw [splitext, rfindAux_none hsep, rfindAux_none hdot]
    rfl
  · intro pre post heq hpost
    have hdot : rfindAux '.' id = some pre.length := by
      rw [heq]
      exact rfindAux_last '.' pre post hpost
    have htake : id.take pre.length = pre := by
      rw [heq]
      exact List.take_left pre ('.' :: post)
    have h0 : ((-1 : Int) + 1).toNat = 0 := rfl
    constructor
    · intro ⟨c, hcmem, hcne⟩
      rw [splitext, rfindAux_none hsep, hdot]
      simp only [h0, Int.toNat_ofNat, List.drop_zero, Nat.sub_zero, htake]
      rw [if_pos (by omega), if_pos ?_]
      rw [List.any_eq_true]
      exact ⟨c, hcmem, by simpa using hcne⟩
    · intro hall
      rw [splitext, rfindAux_none hsep, hdot]
      simp only [h0, Int.toNat_ofNat, List.drop_zero, Nat.sub_zero, htake]
      rw [if_pos (by omega), if_neg ?_]
      rw [List.any_eq_true]
      intro hex
      obtain ⟨c, hcmem, hc⟩ := hex
      exact absurd (hall c hcmem) (by simpa using hc)
  · intro cfg st B m st1 tr h
    rw [upload_file] at h
    simp only at h
    split at h
    · exact absurd h (by simp)
    · split at h
      · exact absurd h (by simp)
      · rw [Except.ok.injEq, Prod.mk.injEq, Prod.mk.injEq] at h
        obtain ⟨hm, hst1, htr1⟩ := h
        rw [← hm]

/-- C4 amended witness: the two spec examples, derived from the amended
theorem at concrete identifiers. -/
theorem display_name_splitext_amended_witness :
    (splitext "report.csv".data).1 = "report".data ∧
    (splitext "README".data).1 = "README".data :=
  ⟨((display_name_splitext_amended "report.csv".data (by decide)).2.1
      "report".data "csv".data (by decide) (by decide)).1 (by decide),
    (display_name_splitext_amended "README".data (by decide)).1 (by decide)⟩

end Echo
